import Mathlib

/-!
# A shallow embedding of the RAG engine (`backend/rag_engine.py`, `backend/main.py`)

The Python program is a retrieval-augmented chatbot engine.  This file embeds
the parts its specification makes claims about:

* `chunk_text` — whitespace word split, fixed-size word windows, re-join with
  single spaces (`RAGEngine.chunk_text`);
* the indexing pipeline — per-file chunk records with ids `<filename>_<i>`,
  batches of 100, sequential embed-then-upsert with fail-fast abort
  (`RAGEngine.index_documents`);
* the startup path — credential check in `RAGEngine.__init__`, the
  already-indexed guard in `RAGEngine.initialize`, the `lifespan` handler of
  `main.py`;
* the query pipeline — retrieval with `top_k = 3`, context-block assembly,
  source deduplication (`RAGEngine.retrieve_relevant_chunks`,
  `RAGEngine.generate_response`, `RAGEngine.query`).

Python strings are modelled as Lean `String`; all string work happens on the
underlying `List Char`.  The external providers (OpenAI, Pinecone) are
modelled as oracle functions supplied as arguments; their contracts, where a
claim needs them, come from the specification (see `storeUpsert` and the
`top_k` bound), since their code is not part of the repository.
-/

/-! ## Python `str.split()` — whitespace word splitting -/

/-- `dropWhile` never lengthens a list (termination measure for the
splitters below). -/
theorem lengthDropWhile_le (p : α → Bool) (l : List α) :
    (l.dropWhile p).length ≤ l.length := by
  induction l with
  | nil => simp [List.dropWhile]
  | cons c cs ih =>
    simp only [List.dropWhile]
    split
    · exact Nat.le_succ_of_le ih
    · exact Nat.le_refl _

/-- The word list of a character list, as Python `str.split()` (no
argument) computes it: maximal runs of non-whitespace characters, with any
run of whitespace acting as a separator and producing no empty words. -/
def wordsOf : List Char → List (List Char)
  | [] => []
  | c :: cs =>
    if c.isWhitespace then wordsOf cs
    else (c :: cs.takeWhile (fun d => !d.isWhitespace)) ::
      wordsOf (cs.dropWhile (fun d => !d.isWhitespace))
termination_by l => l.length
decreasing_by
  · simp only [List.length_cons]; omega
  · simp only [List.length_cons]
    exact Nat.lt_succ_of_le (lengthDropWhile_le _ _)

/-- Python `" ".join(words)`: the words separated by single spaces. -/
def joinSp : List (List Char) → List Char
  | [] => []
  | [w] => w
  | w :: ws => w ++ ' ' :: joinSp ws

/-- Python `str.strip()`: drop whitespace from both ends. -/
def stripChars (l : List Char) : List Char :=
  ((l.dropWhile Char.isWhitespace).reverse.dropWhile Char.isWhitespace).reverse

/-- Python `range(start, stop, step)` for a positive `step`: the indices
`start, start + step, ...` below `stop`.  (CPython's length formula;
for `stop ≤ start` the list is empty.  Python raises on `step = 0`;
no claim uses that case and the model returns `[]` there.) -/
def pyRange (start stop step : Nat) : List Nat :=
  List.range' start ((stop - start + step - 1) / step) step

/-- The slices `l[i : i + sz]` for `i` in `range(0, len(l), sz)` — the slice
pattern both loops of the program use (`words[i:i + chunk_size]` in
`chunk_text`, `documents[i:i + batch_size]` in `index_documents`). -/
def pySlices (l : List α) (sz : Nat) : List (List α) :=
  (pyRange 0 l.length sz).map (fun i => (l.drop i).take sz)

/-- `RAGEngine.chunk_text`, on the underlying character list:
split into words, then for each window of `cs` consecutive words join with
single spaces, keeping the stripped chunk when it is non-empty. -/
def chunk_core (l : List Char) (cs : Nat) : List (List Char) :=
  (pySlices (wordsOf l) cs).foldl
    (fun chunks w =>
      let chunk := stripChars (joinSp w)
      if chunk ≠ [] then chunks ++ [chunk] else chunks) []

/-- The default `chunk_size` of `RAGEngine.chunk_text`. -/
def defaultChunkSize : Nat := 512

/-- `RAGEngine.chunk_text` on strings. -/
def chunk_text (text : String) (chunk_size : Nat) : List String :=
  (chunk_core text.data chunk_size).map String.mk

/-- Python `text.split()` on strings: the word list. -/
def pyWords (s : String) : List String := (wordsOf s.data).map String.mk

/-! ## Grouping words — the loop of `chunk_text`, recursively

`groupW cs ws` is the list of consecutive `cs`-word windows of `ws`; the
fold over `pyRange` in `chunk_core` is proved equal to a map over it. -/

/-- Consecutive windows of at most `cs` elements (every window non-empty). -/
def groupW (cs : Nat) : List α → List (List α)
  | [] => []
  | w :: ws => (w :: ws.take (cs - 1)) :: groupW cs (ws.drop (cs - 1))
termination_by l => l.length
decreasing_by
  simp only [List.length_cons]
  exact Nat.lt_succ_of_le (by rw [List.length_drop]; omega)

/-! ## Words produced by the splitter are non-empty and whitespace-free -/

/-- A "good" word: non-empty and containing no whitespace character. -/
def goodWord (w : List Char) : Prop :=
  w ≠ [] ∧ ∀ c ∈ w, c.isWhitespace = false

/-- Every word `str.split()` produces is non-empty and whitespace-free. -/
theorem wordsOf_good : ∀ l, ∀ w ∈ wordsOf l, goodWord w := by
  intro l
  induction l using wordsOf.induct with
  | case1 => intro w hw; simp [wordsOf] at hw
  | case2 c cs hc ih =>
    intro w hw
    rw [wordsOf, if_pos hc] at hw
    exact ih w hw
  | case3 c cs hc ih =>
    intro w hw
    rw [wordsOf, if_neg hc] at hw
    rcases List.mem_cons.mp hw with h | h
    · subst h
      refine ⟨by simp, ?_⟩
      intro d hd
      rcases List.mem_cons.mp hd with h | h
      · subst h; simpa using hc
      · have := List.mem_takeWhile_imp h
        simpa using this
    · exact ih w h

/-- Splitting a single good word returns just that word. -/
theorem wordsOf_single (w : List Char) (hw : goodWord w) : wordsOf w = [w] := by
  obtain ⟨hne, hnws⟩ := hw
  cases w with
  | nil => exact absurd rfl hne
  | cons c cs =>
    have hc : c.isWhitespace = false := hnws c (List.mem_cons_self ..)
    rw [wordsOf, if_neg (by simp [hc])]
    have htk : cs.takeWhile (fun d => !d.isWhitespace) = cs := by
      apply List.takeWhile_eq_self_iff.mpr
      intro d hd
      simp [hnws d (List.mem_cons_of_mem _ hd)]
    have hdp : cs.dropWhile (fun d => !d.isWhitespace) = [] := by
      apply List.dropWhile_eq_nil_iff.mpr
      intro d hd
      simp [hnws d (List.mem_cons_of_mem _ hd)]
    rw [htk, hdp, wordsOf]

/-- `takeWhile not-whitespace` over a whitespace-free prefix followed by a
space stops exactly at the space. -/
theorem takeWhile_nonws_append : ∀ (w rest : List Char),
    (∀ c ∈ w, c.isWhitespace = false) →
    (w ++ ' ' :: rest).takeWhile (fun d => !d.isWhitespace) = w
  | [], rest, _ => by
    rw [List.nil_append, List.takeWhile_cons, if_neg (by decide)]
  | d :: ds, rest, hn => by
    rw [List.cons_append, List.takeWhile_cons, if_pos (by simp [hn d (by simp)])]
    rw [takeWhile_nonws_append ds rest (fun e he => hn e (List.mem_cons_of_mem _ he))]

/-- `dropWhile not-whitespace` over a whitespace-free prefix followed by a
space drops exactly the prefix. -/
theorem dropWhile_nonws_append : ∀ (w rest : List Char),
    (∀ c ∈ w, c.isWhitespace = false) →
    (w ++ ' ' :: rest).dropWhile (fun d => !d.isWhitespace) = ' ' :: rest
  | [], rest, _ => by
    rw [List.nil_append, List.dropWhile_cons, if_neg (by decide)]
  | d :: ds, rest, hn => by
    rw [List.cons_append, List.dropWhile_cons, if_pos (by simp [hn d (by simp)])]
    rw [dropWhile_nonws_append ds rest (fun e he => hn e (List.mem_cons_of_mem _ he))]

/-- Splitting a good word followed by a space re-discovers the word. -/
theorem wordsOf_word_space (w rest : List Char) (hw : goodWord w) :
    wordsOf (w ++ ' ' :: rest) = w :: wordsOf rest := by
  obtain ⟨hne, hnws⟩ := hw
  cases w with
  | nil => exact absurd rfl hne
  | cons c cs =>
    have hc : c.isWhitespace = false := hnws c (List.mem_cons_self ..)
    rw [List.cons_append, wordsOf, if_neg (by simp [hc])]
    rw [takeWhile_nonws_append cs rest (fun e he => hnws e (List.mem_cons_of_mem _ he))]
    rw [dropWhile_nonws_append cs rest (fun e he => hnws e (List.mem_cons_of_mem _ he))]
    rw [wordsOf, if_pos (by decide)]

/-- `joinSp` on a list with at least two words. -/
theorem joinSp_cons (w : List Char) (ws : List (List Char)) (h : ws ≠ []) :
    joinSp (w :: ws) = w ++ ' ' :: joinSp ws := by
  cases ws with
  | nil => exact absurd rfl h
  | cons w' ws' => rfl

/-- Splitting the space-joined list of good words gives back the words:
the round-trip at the heart of the chunker's no-loss property. -/
theorem wordsOf_joinSp : ∀ ws : List (List Char), (∀ w ∈ ws, goodWord w) →
    wordsOf (joinSp ws) = ws := by
  intro ws
  induction ws with
  | nil => intro _; simp [joinSp, wordsOf]
  | cons w ws ih =>
    intro hgood
    cases ws with
    | nil => exact wordsOf_single w (hgood w (by simp))
    | cons w' ws' =>
      rw [joinSp_cons w _ (by simp), wordsOf_word_space w _ (hgood w (by simp))]
      rw [ih (fun u hu => hgood u (List.mem_cons_of_mem _ hu))]

/-! ## `strip` is the identity on a space-joined list of good words -/

/-- `dropWhile` does nothing when the head fails the predicate. -/
theorem dropWhile_eq_self_of_head (p : α → Bool) (l : List α)
    (h : ∀ c, l.head? = some c → p c = false) : l.dropWhile p = l := by
  cases l with
  | nil => rfl
  | cons c t => rw [List.dropWhile_cons, if_neg (by simp [h c rfl])]

/-- `strip` does nothing when neither end is whitespace. -/
theorem stripChars_eq_self (l : List Char)
    (h1 : ∀ c, l.head? = some c → c.isWhitespace = false)
    (h2 : ∀ c, l.getLast? = some c → c.isWhitespace = false) :
    stripChars l = l := by
  unfold stripChars
  rw [dropWhile_eq_self_of_head _ _ h1]
  rw [dropWhile_eq_self_of_head _ _ (fun c hc => h2 c (by rwa [List.head?_reverse] at hc))]
  exact List.reverse_reverse l

/-- The first character of a join starting with a non-empty word. -/
theorem joinSp_head (c : Char) (cs : List Char) (ws : List (List Char)) :
    (joinSp ((c :: cs) :: ws)).head? = some c := by
  cases ws with
  | nil => rfl
  | cons w' ws' => rw [joinSp_cons _ _ (by simp), List.cons_append]; rfl

/-- A join of non-empty words is non-empty. -/
theorem joinSp_ne_nil : ∀ ws : List (List Char), ws ≠ [] → (∀ w ∈ ws, w ≠ []) →
    joinSp ws ≠ []
  | [], h, _ => absurd rfl h
  | [w], _, hg => by simpa [joinSp] using hg w (by simp)
  | w :: w' :: ws, _, hg => by
    rw [joinSp_cons _ _ (by simp)]
    rcases w with _ | ⟨c, cs⟩
    · exact absurd rfl (hg [] (by simp))
    · simp

/-- The last character of a join of good words is not whitespace. -/
theorem joinSp_getLast_nonws : ∀ ws : List (List Char), (∀ w ∈ ws, goodWord w) →
    ∀ c, (joinSp ws).getLast? = some c → c.isWhitespace = false
  | [], _, c, hc => by simp [joinSp] at hc
  | [w], hg, c, hc => by
    obtain ⟨h, rfl⟩ := List.mem_getLast?_eq_getLast (show c ∈ w.getLast? from hc)
    exact (hg w (by simp)).2 _ (List.getLast_mem h)
  | w :: w' :: ws, hg, c, hc => by
    rw [joinSp_cons _ _ (by simp), List.getLast?_append] at hc
    have hjn : joinSp (w' :: ws) ≠ [] :=
      joinSp_ne_nil _ (by simp) (fun u hu => (hg u (List.mem_cons_of_mem _ hu)).1)
    rcases hj : joinSp (w' :: ws) with _ | ⟨d, ds⟩
    · exact absurd hj hjn
    · rw [hj, List.getLast?_cons_cons] at hc
      have : (d :: ds).getLast? = some c := by
        rcases hlast : (d :: ds).getLast? with _ | e
        · simp [List.getLast?] at hlast
        · rw [hlast] at hc; simpa using hc
      exact joinSp_getLast_nonws (w' :: ws) (fun u hu => hg u (List.mem_cons_of_mem _ hu))
        c (by rw [hj]; exact this)

/-- On a non-empty window of good words, the chunk the loop body builds is
the plain join: `strip` does nothing and the emptiness test never fires. -/
theorem stripChars_joinSp (g : List (List Char)) (hne : g ≠ [])
    (hg : ∀ w ∈ g, goodWord w) :
    stripChars (joinSp g) = joinSp g ∧ joinSp g ≠ [] := by
  refine ⟨?_, joinSp_ne_nil g hne (fun w hw => (hg w hw).1)⟩
  apply stripChars_eq_self
  · intro c hc
    rcases g with _ | ⟨w, ws⟩
    · exact absurd rfl hne
    · rcases w with _ | ⟨d, ds⟩
      · exact absurd rfl (hg [] (by simp)).1
      · rw [joinSp_head d ds ws] at hc
        have hcd : c = d := (by simpa using hc : d = c).symm
        subst hcd
        exact (hg (c :: ds) (by simp)).2 c (by simp)
  · exact joinSp_getLast_nonws g hg

/-! ## The index loop `range(0, n, cs)` walks the windows of `groupW` -/

/-- One step of CPython's range-length formula, `⌈n/cs⌉ = ⌈(n-cs)/cs⌉ + 1`
for non-empty input. -/
theorem ceil_shift (cs n : Nat) (hcs : 0 < cs) (hn : 0 < n) :
    (n + cs - 1) / cs = (n - cs + cs - 1) / cs + 1 := by
  rcases Nat.lt_or_ge cs n with h | h
  · have h1 : n + cs - 1 = (n - cs + cs - 1) + cs := by omega
    rw [h1, Nat.add_div_right _ hcs]
  · have h1 : n - cs = 0 := by omega
    have h2 : n + cs - 1 = (n - 1) + cs := by omega
    rw [h1, h2, Nat.add_div_right _ hcs, Nat.div_eq_of_lt (by omega),
      Nat.zero_add, Nat.div_eq_of_lt (by omega)]

/-- Shifting the start of a stepped range shifts every element. -/
theorem range'_add_step (s n step : Nat) :
    List.range' (s + step) n step = (List.range' s n step).map (· + step) := by
  induction n generalizing s with
  | zero => rfl
  | succ n ih => rw [List.range'_succ, List.range'_succ, List.map_cons, ih]

/-- The tail of the loop's index list, re-based at zero. -/
theorem range'_from_zero (n step : Nat) :
    List.range' step n step = (List.range' 0 n step).map (· + step) := by
  have h := range'_add_step 0 n step
  rwa [Nat.zero_add] at h

/-- The slice loop of the program visits exactly the consecutive windows:
`[l[i:i+cs] for i in range(0, len(l), cs)]` is `groupW cs l`. -/
theorem pySlices_eq_groupW (cs : Nat) (hcs : 0 < cs) (l : List α) :
    pySlices l cs = groupW cs l := by
  induction l using groupW.induct cs with
  | case1 =>
    rw [pySlices, pyRange, groupW]
    rw [List.length_nil, Nat.zero_sub, Nat.zero_add, Nat.div_eq_of_lt (by omega)]
    rfl
  | case2 x xs ih =>
    obtain ⟨c, rfl⟩ : ∃ c, cs = c + 1 := ⟨cs - 1, by omega⟩
    rw [groupW]
    rw [pySlices, pyRange, Nat.sub_zero,
      ceil_shift (c + 1) (x :: xs).length (by omega) (by simp)]
    rw [List.range'_succ, List.map_cons, List.drop_zero, List.take_succ_cons]
    have hdrop : (x :: xs).length - (c + 1) = (xs.drop (c + 1 - 1)).length := by
      rw [List.length_drop]; simp
    rw [Nat.zero_add, range'_from_zero, List.map_map]
    have hfun : ((fun i => (List.drop i (x :: xs)).take (c + 1)) ∘ (· + (c + 1)))
        = (fun i => ((xs.drop (c + 1 - 1)).drop i).take (c + 1)) := by
      funext i
      simp only [Function.comp_apply, List.drop_drop]
      have : i + (c + 1) = (c + 1) + i := by omega
      rw [this, ← List.drop_drop, List.drop_succ_cons]
      simp
    rw [hfun, hdrop, ← ih]
    rw [pySlices, pyRange, Nat.sub_zero]
    simp

/-- The windows of `groupW` concatenate back to the input list. -/
theorem groupW_flatten (cs : Nat) (l : List α) : (groupW cs l).flatten = l := by
  induction l using groupW.induct cs with
  | case1 => rw [groupW]; rfl
  | case2 x xs ih =>
    rw [groupW, List.flatten_cons, ih, List.cons_append, List.take_append_drop]

/-- Windows are non-empty sub-multisets of the input: every element of a
window is an element of the input list. -/
theorem groupW_mem (cs : Nat) (l : List α) :
    ∀ g ∈ groupW cs l, g ≠ [] ∧ ∀ w ∈ g, w ∈ l := by
  induction l using groupW.induct cs with
  | case1 => intro g hg; rw [groupW] at hg; exact absurd hg (by simp)
  | case2 x xs ih =>
    intro g hg
    rw [groupW] at hg
    rcases List.mem_cons.mp hg with h | h
    · subst h
      refine ⟨by simp, ?_⟩
      intro w hw
      rcases List.mem_cons.mp hw with h | h
      · simp [h]
      · exact List.mem_cons_of_mem _ (List.take_subset _ _ h)
    · obtain ⟨hne, hsub⟩ := ih g h
      exact ⟨hne, fun w hw => List.mem_cons_of_mem _ (List.drop_subset _ _ (hsub w hw))⟩

/-- No window exceeds `cs` elements. -/
theorem groupW_length_le (cs : Nat) (hcs : 0 < cs) (l : List α) :
    ∀ g ∈ groupW cs l, g.length ≤ cs := by
  induction l using groupW.induct cs with
  | case1 => intro g hg; rw [groupW] at hg; exact absurd hg (by simp)
  | case2 x xs ih =>
    intro g hg
    rw [groupW] at hg
    rcases List.mem_cons.mp hg with h | h
    · subst h
      have := List.length_take (cs - 1) xs
      simp only [List.length_cons, this]
      omega
    · exact ih g h

/-- A non-empty list has at least one window. -/
theorem groupW_ne_nil (cs : Nat) (l : List α) (h : l ≠ []) : groupW cs l ≠ [] := by
  cases l with
  | nil => exact absurd rfl h
  | cons x xs => rw [groupW]; simp

/-! ## The fold of `chunk_text` keeps every window -/

/-- On windows whose chunk survives `strip` non-empty (as all windows of
good words do), the append-if fold is a plain map. -/
theorem foldl_strip_eq_map : ∀ (L : List (List (List Char))) (acc : List (List Char)),
    (∀ g ∈ L, stripChars (joinSp g) = joinSp g ∧ joinSp g ≠ []) →
    L.foldl (fun chunks w =>
      let chunk := stripChars (joinSp w)
      if chunk ≠ [] then chunks ++ [chunk] else chunks) acc
      = acc ++ L.map joinSp
  | [], acc, _ => by simp
  | g :: L, acc, hall => by
    obtain ⟨hstrip, hne⟩ := hall g (by simp)
    rw [List.foldl_cons]
    simp only [hstrip, if_pos hne]
    rw [foldl_strip_eq_map L (acc ++ [joinSp g]) (fun u hu => hall u (List.mem_cons_of_mem _ hu))]
    simp

/-- `chunk_text`'s loop, closed form: the chunks are exactly the space-joins
of the consecutive `cs`-word windows of the word list. -/
theorem chunk_core_eq (l : List Char) (cs : Nat) (hcs : 0 < cs) :
    chunk_core l cs = (groupW cs (wordsOf l)).map joinSp := by
  rw [chunk_core, pySlices_eq_groupW cs hcs]
  have hall : ∀ g ∈ groupW cs (wordsOf l),
      stripChars (joinSp g) = joinSp g ∧ joinSp g ≠ [] := by
    intro g hg
    obtain ⟨hne, hsub⟩ := groupW_mem cs (wordsOf l) g hg
    exact stripChars_joinSp g hne (fun w hw => wordsOf_good l w (hsub w hw))
  rw [foldl_strip_eq_map _ [] hall, List.nil_append]

/-- The number of windows is the ceiling `⌈n/cs⌉` in CPython's form. -/
theorem groupW_length (cs : Nat) (hcs : 0 < cs) (l : List α) :
    (groupW cs l).length = (l.length + cs - 1) / cs := by
  induction l using groupW.induct cs with
  | case1 =>
    rw [groupW, List.length_nil, List.length_nil, Nat.div_eq_of_lt (by omega)]
  | case2 x xs ih =>
    rw [groupW, List.length_cons, ih,
      ceil_shift cs (x :: xs).length hcs (by simp)]
    congr 2
    rw [List.length_drop, List.length_cons]
    omega

/-- Every window but the last is full: exactly `cs` words. -/
theorem groupW_init_full (cs : Nat) (hcs : 0 < cs) (l : List α) :
    ∀ i, i + 1 < (groupW cs l).length → ((groupW cs l).getD i []).length = cs := by
  induction l using groupW.induct cs with
  | case1 => intro i hi; rw [groupW] at hi; simp at hi
  | case2 x xs ih =>
    intro i hi
    rw [groupW] at hi ⊢
    cases i with
    | zero =>
      rw [List.getD_cons_zero]
      have hrest : groupW cs (xs.drop (cs - 1)) ≠ [] := by
        intro h
        rw [List.length_cons, h] at hi
        simp at hi
      have hd : xs.drop (cs - 1) ≠ [] := by
        intro h
        rw [h] at hrest
        exact hrest (by rw [groupW])
      have hlen : cs - 1 < xs.length := by
        by_contra h
        exact hd (List.drop_eq_nil_iff.mpr (by omega))
      rw [List.length_cons, List.length_take, min_eq_left (by omega)]
      omega
    | succ i =>
      rw [List.getD_cons_succ]
      apply ih
      rw [List.length_cons] at hi
      omega

/-! ## `chunk_text` at the string level -/

/-- `pyWords` unfolds through `String.mk`. -/
theorem pyWords_mk (l : List Char) : pyWords (String.mk l) = (wordsOf l).map String.mk :=
  rfl

/-- Closed form of `chunk_text`: join each consecutive window of the split. -/
theorem chunk_text_eq (text : String) (cs : Nat) (hcs : 0 < cs) :
    chunk_text text cs = (groupW cs (wordsOf text.data)).map (fun g => String.mk (joinSp g)) := by
  rw [chunk_text, chunk_core_eq _ _ hcs, List.map_map]
  rfl

/-- Splitting a chunk built from a window of the text's own words gives back
exactly that window. -/
theorem pyWords_window (l : List Char) (cs : Nat) (g : List (List Char))
    (hg : g ∈ groupW cs (wordsOf l)) :
    pyWords (String.mk (joinSp g)) = g.map String.mk := by
  obtain ⟨_, hsub⟩ := groupW_mem cs (wordsOf l) g hg
  rw [pyWords_mk, wordsOf_joinSp g (fun w hw => wordsOf_good l w (hsub w hw))]

/-- A text with at least one word chunks to at least one segment. -/
theorem chunkText_ne_nil (text : String) (cs : Nat) (hcs : 0 < cs)
    (hw : pyWords text ≠ []) : chunk_text text cs ≠ [] := by
  have hW : wordsOf text.data ≠ [] := by
    intro h
    exact hw (by simp [pyWords, h])
  rw [chunk_text_eq text cs hcs]
  simpa using groupW_ne_nil cs _ hW

/-- No words are dropped, added or reordered: re-splitting all segments and
concatenating gives the original word sequence. -/
theorem chunkText_words_flatten (text : String) (cs : Nat) (hcs : 0 < cs) :
    ((chunk_text text cs).map pyWords).flatten = pyWords text := by
  rw [chunk_text_eq text cs hcs, List.map_map]
  have hcongr : List.map (pyWords ∘ fun g => String.mk (joinSp g))
      (groupW cs (wordsOf text.data))
      = List.map (fun g => g.map String.mk) (groupW cs (wordsOf text.data)) :=
    List.map_congr_left (fun g hg => pyWords_window text.data cs g hg)
  rw [hcongr, ← List.map_flatten, groupW_flatten]
  rfl

/-- No segment has more than `cs` words. -/
theorem chunkText_word_bound (text : String) (cs : Nat) (hcs : 0 < cs) :
    ∀ seg ∈ chunk_text text cs, (pyWords seg).length ≤ cs := by
  rw [chunk_text_eq text cs hcs]
  intro seg hseg
  obtain ⟨g, hg, rfl⟩ := List.mem_map.mp hseg
  rw [pyWords_window text.data cs g hg, List.length_map]
  exact groupW_length_le cs hcs _ g hg

/-- Every segment except possibly the last has exactly `cs` words. -/
theorem chunkText_init_full (text : String) (cs : Nat) (hcs : 0 < cs) :
    ∀ i, i + 1 < (chunk_text text cs).length →
      (pyWords ((chunk_text text cs).getD i "")).length = cs := by
  rw [chunk_text_eq text cs hcs]
  intro i hi
  rw [List.length_map] at hi
  have hlt : i < (groupW cs (wordsOf text.data)).length := by omega
  rw [List.getD_eq_getElem?_getD, List.getElem?_map, List.getElem?_eq_getElem hlt]
  simp only [Option.map_some', Option.getD_some]
  rw [pyWords_window text.data cs _ (List.getElem_mem hlt), List.length_map]
  have h := groupW_init_full cs hcs (wordsOf text.data) i hi
  rwa [List.getD_eq_getElem _ _ hlt] at h

/-- The number of segments is the ceiling of word count over `cs`. -/
theorem chunkText_length (text : String) (cs : Nat) (hcs : 0 < cs) :
    (chunk_text text cs).length = ((pyWords text).length + cs - 1) / cs := by
  rw [chunk_text_eq text cs hcs, List.length_map, groupW_length cs hcs]
  rw [pyWords, List.length_map]

/-! ## Claims about the chunker -/

set_option maxRecDepth 10000

/-- **C1, counterexample.** The claim as stated is false on the code: the
text `" "` is a non-empty input and the default chunk size is positive, yet
`chunk_text` returns the empty sequence of segments, not a non-empty one
(`"".split()`-style whitespace-only inputs produce no words). -/
theorem c1_counterexample :
    (" " : String) ≠ "" ∧ 0 < defaultChunkSize ∧ chunk_text " " defaultChunkSize = [] := by
  refine ⟨by decide, by decide, ?_⟩
  simp +decide [chunk_text, chunk_core, pySlices, pyRange, wordsOf, defaultChunkSize]

/-- **C1 (amended).** For every input text whose whitespace split yields at
least one word (rather than every non-empty text: a whitespace-only text is
non-empty but chunks to nothing) and every positive `chunk_size`,
`chunk_text` returns a non-empty sequence of segments such that splitting
each segment on whitespace and concatenating the word lists reproduces the
original text's word sequence exactly — no words dropped, added or
reordered — and no segment contains more than `chunk_size` words. -/
theorem chunk_text_partition (text : String) (chunk_size : Nat)
    (hcs : 0 < chunk_size) (hw : pyWords text ≠ []) :
    chunk_text text chunk_size ≠ [] ∧
    ((chunk_text text chunk_size).map pyWords).flatten = pyWords text ∧
    ∀ seg ∈ chunk_text text chunk_size, (pyWords seg).length ≤ chunk_size :=
  ⟨chunkText_ne_nil text chunk_size hcs hw,
   chunkText_words_flatten text chunk_size hcs,
   chunkText_word_bound text chunk_size hcs⟩

/-- Witness for the amended C1: the text `"a b c"` with `chunk_size = 2`. -/
theorem chunk_text_partition_witness :
    (0 < 2 ∧ pyWords "a b c" ≠ []) ∧
    (chunk_text "a b c" 2 ≠ [] ∧
     ((chunk_text "a b c" 2).map pyWords).flatten = pyWords "a b c" ∧
     ∀ seg ∈ chunk_text "a b c" 2, (pyWords seg).length ≤ 2) :=
  ⟨⟨by decide, by simp +decide [pyWords, wordsOf]⟩,
   chunk_text_partition "a b c" 2 (by decide) (by simp +decide [pyWords, wordsOf])⟩

/-- **C7.** `chunk_text` is deterministic: for every text and chunk size,
two calls with identical input yield identical sequences of segments.  The
embedding is a pure function of its two arguments, as is the Python body
(`split`, slicing, `join`, `strip` — no ambient state is read). -/
theorem chunk_text_deterministic (text : String) (chunk_size : Nat) :
    chunk_text text chunk_size = chunk_text text chunk_size := rfl

/-- **C10.** For every text whose whitespace split yields at least one word
and every positive `chunk_size`, every segment except possibly the last has
exactly `chunk_size` words, and the number of segments is the ceiling of
the word count divided by `chunk_size`. -/
theorem chunk_text_window_sizes (text : String) (chunk_size : Nat)
    (hcs : 0 < chunk_size) (hw : pyWords text ≠ []) :
    (∀ i, i + 1 < (chunk_text text chunk_size).length →
      (pyWords ((chunk_text text chunk_size).getD i "")).length = chunk_size) ∧
    (chunk_text text chunk_size).length
      = ((pyWords text).length + chunk_size - 1) / chunk_size :=
  ⟨chunkText_init_full text chunk_size hcs, chunkText_length text chunk_size hcs⟩

/-- Witness for C10: the text `"a b c d e"` with `chunk_size = 2`. -/
theorem chunk_text_window_sizes_witness :
    (0 < 2 ∧ pyWords "a b c d e" ≠ []) ∧
    ((∀ i, i + 1 < (chunk_text "a b c d e" 2).length →
      (pyWords ((chunk_text "a b c d e" 2).getD i "")).length = 2) ∧
     (chunk_text "a b c d e" 2).length = ((pyWords "a b c d e").length + 2 - 1) / 2) :=
  ⟨⟨by decide, by simp +decide [pyWords, wordsOf]⟩,
   chunk_text_window_sizes "a b c d e" 2 (by decide) (by simp +decide [pyWords, wordsOf])⟩

/-! ## The indexing pipeline: documents, chunk records, ids -/

/-- One entry of the `documents` list `RAGEngine.index_documents` builds:
`{'id': f"{filename}_{i}", 'text': chunk, 'source': filename,
'chunk_index': i}`. -/
structure DocChunk where
  id : String
  text : String
  source : String
  chunk_index : Nat
deriving DecidableEq, Repr

/-- Python `enumerate`, starting at `i`. -/
def pyEnumFrom (i : Nat) : List α → List (Nat × α)
  | [] => []
  | x :: xs => (i, x) :: pyEnumFrom (i + 1) xs

/-- The chunk records of one corpus file: chunk with the default size 512,
then id each chunk `<filename>_<chunk_index>`. -/
def docsForFile (filename content : String) : List DocChunk :=
  (pyEnumFrom 0 (chunk_text content defaultChunkSize)).map
    (fun p => ⟨filename ++ "_" ++ toString p.1, p.2, filename, p.1⟩)

/-- Python `s.endswith(suffix)`, as a character-suffix test.  (Lean's own
`String.endsWith` walks byte positions, which the kernel cannot evaluate on
literals; the character-list form is the same function on Unicode text.) -/
def strEndsWith (s suffix : String) : Bool :=
  suffix.data.isSuffixOf s.data

/-- The eligibility test of the corpus reader:
`filename.endswith(('.txt', '.md'))`. -/
def eligibleFile (filename : String) : Bool :=
  strEndsWith filename ".txt" || strEndsWith filename ".md"

/-- All chunk records of the corpus (a directory listing modelled as a list
of `(filename, content)` pairs, in listing order). -/
def corpusDocs (corpus : List (String × String)) : List DocChunk :=
  (corpus.filter (fun p => eligibleFile p.1)).flatMap (fun p => docsForFile p.1 p.2)

/-- **C4.** A corpus document `policy.txt` whose content has exactly 600
whitespace-separated words chunks, at the default `chunk_size` of 512, into
exactly 2 chunks of 512 and 88 words, and the indexing pipeline assigns
them the ids `policy.txt_0` and `policy.txt_1`. -/
theorem policy_600_two_chunks (content : String)
    (h : (pyWords content).length = 600) :
    (chunk_text content defaultChunkSize).length = 2 ∧
    (pyWords ((chunk_text content defaultChunkSize).getD 0 "")).length = 512 ∧
    (pyWords ((chunk_text content defaultChunkSize).getD 1 "")).length = 88 ∧
    (docsForFile "policy.txt" content).map DocChunk.id
      = ["policy.txt_0", "policy.txt_1"] := by
  have hcs : 0 < defaultChunkSize := by decide
  have hlen : (chunk_text content defaultChunkSize).length = 2 := by
    rw [chunkText_length content _ hcs, h]
    decide
  have h512 : (pyWords ((chunk_text content defaultChunkSize).getD 0 "")).length = 512 := by
    have hfull := chunkText_init_full content defaultChunkSize hcs 0 (by omega)
    rwa [show defaultChunkSize = 512 from rfl] at hfull
  obtain ⟨c0, c1, hc⟩ := List.length_eq_two.mp hlen
  have hflat := chunkText_words_flatten content defaultChunkSize hcs
  have hids : (docsForFile "policy.txt" content).map DocChunk.id
      = ["policy.txt_0", "policy.txt_1"] := by
    rw [docsForFile, hc]
    simp only [pyEnumFrom, List.map_cons, List.map_nil]
    decide
  refine ⟨hlen, h512, ?_, hids⟩
  rw [hc] at hflat h512 ⊢
  rw [List.getD_cons_zero] at h512
  simp only [List.map_cons, List.map_nil, List.flatten_cons, List.flatten_nil,
    List.append_nil] at hflat
  have hsum : (pyWords c0).length + (pyWords c1).length = 600 := by
    rw [← List.length_append, hflat, h]
  rw [List.getD_cons_succ, List.getD_cons_zero]
  omega

/-- Witness for C4: 600 copies of the word `a`. -/
theorem policy_600_two_chunks_witness :
    (pyWords (String.mk (joinSp (List.replicate 600 ['a'])))).length = 600 ∧
    ((chunk_text (String.mk (joinSp (List.replicate 600 ['a']))) defaultChunkSize).length = 2 ∧
     (pyWords ((chunk_text (String.mk (joinSp (List.replicate 600 ['a']))) defaultChunkSize).getD 0 "")).length = 512 ∧
     (pyWords ((chunk_text (String.mk (joinSp (List.replicate 600 ['a']))) defaultChunkSize).getD 1 "")).length = 88 ∧
     (docsForFile "policy.txt" (String.mk (joinSp (List.replicate 600 ['a'])))).map DocChunk.id
       = ["policy.txt_0", "policy.txt_1"]) := by
  have hgood : ∀ w ∈ List.replicate 600 ['a'], goodWord w := by
    intro w hw
    rw [List.eq_of_mem_replicate hw]
    exact ⟨by decide, by decide⟩
  have h600 : (pyWords (String.mk (joinSp (List.replicate 600 ['a'])))).length = 600 := by
    rw [pyWords_mk, wordsOf_joinSp _ hgood, List.length_map, List.length_replicate]
  exact ⟨h600, policy_600_two_chunks _ h600⟩

/-! ## Effects and oracles: the provider boundary

The OpenAI and Pinecone clients are not part of the repository; calls to
them are recorded as effects, and their outcomes are supplied by oracle
functions (`embedR`, `upsertR`).  A `.error`/`false` outcome models the
Python call raising. -/

/-- An embedding vector; the numeric contents pass through the pipeline
untouched, so their values are opaque to every claim. -/
abbrev Vec := List Int

/-- A record upserted to the vector store: `{'id', 'values',
'metadata': {'text', 'source', 'chunk_index'}}`. -/
structure URec where
  id : String
  values : Vec
  text : String
  source : String
  chunk_index : Nat
deriving DecidableEq, Repr

/-- One observable provider/store call of the engine. -/
inductive Effect where
  | listIndexes
  | createIndex
  | describeStats
  | embed (text : String)
  | upsert (recs : List URec)
deriving DecidableEq, Repr

/-- The embed loop of one batch: `for doc in batch: get_embedding(doc)`,
recording each call and stopping at the first raised error. -/
def embedDocs (embedR : String → Except String Vec) :
    List DocChunk → List Effect × Except String (List URec)
  | [] => ([], .ok [])
  | d :: ds =>
    match embedR d.text with
    | .error e => ([.embed d.text], .error e)
    | .ok v =>
      match embedDocs embedR ds with
      | (tr, .error e) => (.embed d.text :: tr, .error e)
      | (tr, .ok rest) =>
        (.embed d.text :: tr, .ok (⟨d.id, v, d.text, d.source, d.chunk_index⟩ :: rest))

/-- Modelled from the spec: the vector store's `upsert` (Pinecone's, not in
the repository).  §3 / §4.3: insert-or-replace by `id` — "upserting with an
existing `id` replaces it"; records with fresh ids are appended. -/
def storeUpsert (store : List URec) (recs : List URec) : List URec :=
  recs.foldl (fun s r =>
    if s.any (fun x => x.id == r.id) then
      s.map (fun x => if x.id == r.id then r else x)
    else s ++ [r]) store

/-- The batch loop of `index_documents`: embed every record of the batch,
then upsert the batch, then move to the next; any raised error aborts. -/
def runBatches (embedR : String → Except String Vec) (upsertR : List URec → Bool) :
    List URec → List (List DocChunk) → List Effect × List URec × Option String
  | store, [] => ([], store, none)
  | store, b :: bs =>
    match embedDocs embedR b with
    | (tr, .error e) => (tr, store, some e)
    | (tr, .ok recs) =>
      if upsertR recs then
        match runBatches embedR upsertR (storeUpsert store recs) bs with
        | (tr2, store2, r) => (tr ++ .upsert recs :: tr2, store2, r)
      else (tr ++ [.upsert recs], store, some "upsert error")

/-- The fixed batch size of `index_documents`. -/
def batchSize : Nat := 100

/-- `RAGEngine.index_documents` over a given store state: collect the
corpus's chunk records, then process them in batches of 100. -/
def index_documents_run (embedR : String → Except String Vec)
    (upsertR : List URec → Bool) (store : List URec)
    (corpus : List (String × String)) : List Effect × List URec × Option String :=
  runBatches embedR upsertR store (pySlices (corpusDocs corpus) batchSize)

/-- The engine's index name. -/
def index_name : String := "acme-tech-chatbot"

/-- `RAGEngine.initialize`: list indexes, create the index when absent,
connect, describe, and run `index_documents` only when
`total_vector_count == 0` (the store's record count). -/
def initRun (embedR : String → Except String Vec) (upsertR : List URec → Bool)
    (existing : List String) (store : List URec) (corpus : List (String × String)) :
    List Effect × List URec × Option String :=
  let pre := [Effect.listIndexes]
    ++ (if index_name ∈ existing then [] else [Effect.createIndex])
    ++ [Effect.describeStats]
  if store.length == 0 then
    match index_documents_run embedR upsertR store corpus with
    | (tr, store2, r) => (pre ++ tr, store2, r)
  else (pre, store, none)

/-- **C2.** If the vector store's describe reports a positive record count
at initialize time, the startup performs no embedding call and no upsert
call, and leaves the store contents unchanged: `index_documents` is never
invoked behind the `total_vector_count == 0` guard. -/
theorem init_guard_no_calls (embedR : String → Except String Vec)
    (upsertR : List URec → Bool) (existing : List String) (store : List URec)
    (corpus : List (String × String)) (h : 0 < store.length) :
    (∀ e ∈ (initRun embedR upsertR existing store corpus).1,
      (∀ t, e ≠ Effect.embed t) ∧ ∀ rs, e ≠ Effect.upsert rs) ∧
    (initRun embedR upsertR existing store corpus).2.1 = store := by
  have hguard : (store.length == 0) = false := by
    simp only [beq_eq_false_iff_ne, ne_eq]
    omega
  simp only [initRun, hguard, Bool.false_eq_true, if_false]
  refine ⟨?_, by trivial⟩
  intro e he
  have he3 : e = .listIndexes ∨ e = .createIndex ∨ e = .describeStats := by
    simp at he
    tauto
  rcases he3 with rfl | rfl | rfl <;>
    exact ⟨fun t => by simp, fun rs => by simp⟩

/-- Witness for C2: one pre-existing record, a one-file corpus. -/
theorem init_guard_no_calls_witness :
    0 < ([⟨"x_0", [], "w", "x", 0⟩] : List URec).length ∧
    ((∀ e ∈ (initRun (fun _ => Except.ok []) (fun _ => true) []
        [⟨"x_0", [], "w", "x", 0⟩] [("a.txt", "hello")]).1,
      (∀ t, e ≠ Effect.embed t) ∧ ∀ rs, e ≠ Effect.upsert rs) ∧
    (initRun (fun _ => Except.ok []) (fun _ => true) []
        [⟨"x_0", [], "w", "x", 0⟩] [("a.txt", "hello")]).2.1
      = [⟨"x_0", [], "w", "x", 0⟩]) :=
  ⟨by decide,
   init_guard_no_calls (fun _ => Except.ok []) (fun _ => true) []
     [⟨"x_0", [], "w", "x", 0⟩] [("a.txt", "hello")] (by decide)⟩

/-! ## Failure isolation of the batch loop (C5) -/

/-- The record a successful embed of `d` produces. -/
def recOfD (embedR : String → Except String Vec) (d : DocChunk) : URec :=
  ⟨d.id, (embedR d.text).toOption.getD [], d.text, d.source, d.chunk_index⟩

/-- The records of a fully-embedded batch. -/
def batchRecs (embedR : String → Except String Vec) (b : List DocChunk) : List URec :=
  b.map (recOfD embedR)

/-- A batch goes through cleanly: every embedding call returns a vector and
the batch's upsert call succeeds. -/
def batchSucceeds (embedR : String → Except String Vec) (upsertR : List URec → Bool)
    (b : List DocChunk) : Prop :=
  (∀ d ∈ b, (embedR d.text).isOk = true) ∧ upsertR (batchRecs embedR b) = true

/-- With every embed succeeding, the batch loop's embed phase records one
embed call per document and produces the batch's records. -/
theorem embedDocs_ok (embedR : String → Except String Vec) : ∀ b : List DocChunk,
    (∀ d ∈ b, (embedR d.text).isOk = true) →
    embedDocs embedR b = (b.map (fun d => Effect.embed d.text), .ok (batchRecs embedR b))
  | [], _ => rfl
  | d :: ds, h => by
    have hd := h d (by simp)
    rcases hv : embedR d.text with e | v
    · rw [hv] at hd
      simp [Except.isOk, Except.toBool] at hd
    · rw [embedDocs, hv,
        embedDocs_ok embedR ds (fun x hx => h x (List.mem_cons_of_mem _ hx))]
      simp [batchRecs, recOfD, hv, Except.toOption]

/-- Every effect the embed phase records is an embed of one of the batch's
documents' texts. -/
theorem embedDocs_trace (embedR : String → Except String Vec) : ∀ b : List DocChunk,
    ∀ eff ∈ (embedDocs embedR b).1, ∃ d ∈ b, eff = Effect.embed d.text
  | [], eff, heff => by simp [embedDocs] at heff
  | d :: ds, eff, heff => by
    rw [embedDocs] at heff
    rcases hv : embedR d.text with e | v
    · rw [hv] at heff
      simp at heff
      exact ⟨d, by simp, heff⟩
    · rw [hv] at heff
      rcases hrec : embedDocs embedR ds with ⟨tr, res⟩
      rw [hrec] at heff
      have hmem : eff = Effect.embed d.text ∨ eff ∈ tr := by
        rcases res with e | rest
        · simpa using List.mem_cons.mp heff
        · simpa using List.mem_cons.mp heff
      rcases hmem with rfl | hmem
      · exact ⟨d, by simp, rfl⟩
      · obtain ⟨d', hd', rfl⟩ := embedDocs_trace embedR ds eff (by rw [hrec]; exact hmem)
        exact ⟨d', List.mem_cons_of_mem _ hd', rfl⟩

/-- If the embed phase reports success, every embed call succeeded. -/
theorem embedDocs_ok_inv (embedR : String → Except String Vec) : ∀ (b : List DocChunk)
    (tr : List Effect) (recs : List URec),
    embedDocs embedR b = (tr, .ok recs) → ∀ d ∈ b, (embedR d.text).isOk = true
  | [], _, _, _ => by intro d hd; simp at hd
  | d :: ds, tr, recs, h => by
    intro x hx
    rw [embedDocs] at h
    rcases hv : embedR d.text with e | v
    · rw [hv] at h
      simp at h
    · rw [hv] at h
      rcases hrec : embedDocs embedR ds with ⟨tr', res⟩
      rw [hrec] at h
      rcases res with e | rest
      · simp at h
      · rcases List.mem_cons.mp hx with rfl | hx'
        · simp [hv, Except.isOk, Except.toBool]
        · exact embedDocs_ok_inv embedR ds tr' rest (by rw [hrec]) x hx'

/-- The batch loop under a mid-run failure: all batches before the failing
one stay upserted (no rollback), the run reports an error, and no call is
made for any batch past the failing one. -/
theorem runBatches_abort (embedR : String → Except String Vec)
    (upsertR : List URec → Bool) :
    ∀ (bs1 : List (List DocChunk)) (b : List DocChunk) (bs2 : List (List DocChunk))
      (store : List URec),
    (∀ batch ∈ bs1, batchSucceeds embedR upsertR batch) →
    ¬ batchSucceeds embedR upsertR b →
    (runBatches embedR upsertR store (bs1 ++ b :: bs2)).2.2.isSome = true ∧
    (runBatches embedR upsertR store (bs1 ++ b :: bs2)).2.1
      = bs1.foldl (fun s batch => storeUpsert s (batchRecs embedR batch)) store ∧
    (∀ t, Effect.embed t ∈ (runBatches embedR upsertR store (bs1 ++ b :: bs2)).1 →
      ∃ batch ∈ bs1 ++ [b], ∃ d ∈ batch, t = d.text) ∧
    (∀ rs, Effect.upsert rs ∈ (runBatches embedR upsertR store (bs1 ++ b :: bs2)).1 →
      ∃ batch ∈ bs1 ++ [b], rs = batchRecs embedR batch)
  | [], b, bs2, store, _, hfail => by
    rw [List.nil_append]
    rcases hE : embedDocs embedR b with ⟨tr, res⟩
    rcases res with e | recs
    · rw [runBatches, hE]
      dsimp only
      refine ⟨rfl, rfl, ?_, ?_⟩
      · intro t ht
        obtain ⟨d, hd, heq⟩ := embedDocs_trace embedR b (Effect.embed t) (by rw [hE]; exact ht)
        exact ⟨b, by simp, d, hd, by injection heq⟩
      · intro rs hrs
        obtain ⟨d, _, heq⟩ := embedDocs_trace embedR b (Effect.upsert rs) (by rw [hE]; exact hrs)
        exact absurd heq (by simp)
    · have hemb : ∀ d ∈ b, (embedR d.text).isOk = true :=
        embedDocs_ok_inv embedR b tr recs hE
      have hEok := embedDocs_ok embedR b hemb
      rw [hE] at hEok
      obtain ⟨htr, hrecs⟩ : tr = b.map (fun d => Effect.embed d.text)
          ∧ recs = batchRecs embedR b := by
        refine ⟨congrArg Prod.fst hEok, ?_⟩
        have := congrArg Prod.snd hEok
        simpa using this
      have hup : upsertR recs = false := by
        rcases hcase : upsertR recs with _ | _
        · rfl
        · exact absurd ⟨hemb, by rwa [← hrecs]⟩ hfail
      rw [runBatches, hE]
      dsimp only
      rw [hup]
      simp only [Bool.false_eq_true, if_false]
      refine ⟨rfl, rfl, ?_, ?_⟩
      · intro t ht
        rcases List.mem_append.mp ht with h1 | h1
        · obtain ⟨d, hd, heq⟩ := embedDocs_trace embedR b (Effect.embed t) (by rw [hE]; exact h1)
          exact ⟨b, by simp, d, hd, by injection heq⟩
        · simp at h1
      · intro rs hrs
        rcases List.mem_append.mp hrs with h1 | h1
        · obtain ⟨d, _, heq⟩ := embedDocs_trace embedR b (Effect.upsert rs) (by rw [hE]; exact h1)
          exact absurd heq (by simp)
        · have : rs = recs := by simpa using h1
          exact ⟨b, by simp, by rw [this, hrecs]⟩
  | batch :: rest, b, bs2, store, hok, hfail => by
    obtain ⟨hemb, hup⟩ := hok batch (by simp)
    have hih := runBatches_abort embedR upsertR rest b bs2
      (storeUpsert store (batchRecs embedR batch))
      (fun u hu => hok u (List.mem_cons_of_mem _ hu)) hfail
    rcases hR : runBatches embedR upsertR (storeUpsert store (batchRecs embedR batch))
        (rest ++ b :: bs2) with ⟨tr2, store2, r⟩
    rw [hR] at hih
    obtain ⟨hih1, hih2, hih3, hih4⟩ := hih
    rw [List.cons_append, runBatches, embedDocs_ok embedR batch hemb]
    dsimp only
    rw [if_pos hup, hR]
    dsimp only
    refine ⟨hih1, by rw [List.foldl_cons]; exact hih2, ?_, ?_⟩
    · intro t ht
      rcases List.mem_append.mp ht with h1 | h1
      · obtain ⟨d, hd, heq⟩ := List.mem_map.mp h1
        exact ⟨batch, by simp, d, hd, by injection heq.symm⟩
      · rcases List.mem_cons.mp h1 with h2 | h2
        · exact absurd h2 (by simp)
        · obtain ⟨batch', hb', d, hd, rfl⟩ := hih3 t h2
          rcases List.mem_append.mp hb' with h3 | h3
          · exact ⟨batch', List.mem_append_left _ (List.mem_cons_of_mem _ h3), d, hd, rfl⟩
          · exact ⟨batch', List.mem_append_right _ h3, d, hd, rfl⟩
    · intro rs hrs
      rcases List.mem_append.mp hrs with h1 | h1
      · obtain ⟨d, _, heq⟩ := List.mem_map.mp h1
        exact absurd heq (by simp)
      · rcases List.mem_cons.mp h1 with h2 | h2
        · exact ⟨batch, by simp, by injection h2⟩
        · obtain ⟨batch', hb', rfl⟩ := hih4 rs h2
          rcases List.mem_append.mp hb' with h3 | h3
          · exact ⟨batch', List.mem_append_left _ (List.mem_cons_of_mem _ h3), rfl⟩
          · exact ⟨batch', List.mem_append_right _ h3, rfl⟩

/-- **C5.** If an embedding or upsert error occurs while `index_documents`
is processing one of its 100-record batches, the run aborts with an error:
every earlier batch remains upserted in the store (no rollback), and no
embedding or upsert call is made for any later batch — every call in the
trace belongs to a batch up to and including the failing one. -/
theorem index_documents_abort (embedR : String → Except String Vec)
    (upsertR : List URec → Bool) (store : List URec)
    (corpus : List (String × String)) (bs1 : List (List DocChunk))
    (b : List DocChunk) (bs2 : List (List DocChunk))
    (hsplit : pySlices (corpusDocs corpus) batchSize = bs1 ++ b :: bs2)
    (hok : ∀ batch ∈ bs1, batchSucceeds embedR upsertR batch)
    (hfail : ¬ batchSucceeds embedR upsertR b) :
    (index_documents_run embedR upsertR store corpus).2.2.isSome = true ∧
    (index_documents_run embedR upsertR store corpus).2.1
      = bs1.foldl (fun s batch => storeUpsert s (batchRecs embedR batch)) store ∧
    (∀ t, Effect.embed t ∈ (index_documents_run embedR upsertR store corpus).1 →
      ∃ batch ∈ bs1 ++ [b], ∃ d ∈ batch, t = d.text) ∧
    (∀ rs, Effect.upsert rs ∈ (index_documents_run embedR upsertR store corpus).1 →
      ∃ batch ∈ bs1 ++ [b], rs = batchRecs embedR batch) := by
  rw [index_documents_run, hsplit]
  exact runBatches_abort embedR upsertR bs1 b bs2 store hok hfail

/-- Witness for C5: a one-file corpus whose only batch fails to embed. -/
theorem index_documents_abort_witness :
    (pySlices (corpusDocs [("a.txt", "hello")]) batchSize
      = [] ++ [(⟨"a.txt_0", "hello", "a.txt", 0⟩ : DocChunk)] :: []) ∧
    (∀ batch ∈ ([] : List (List DocChunk)),
      batchSucceeds (fun _ => Except.error "boom") (fun _ => true) batch) ∧
    ¬ batchSucceeds (fun _ => Except.error "boom") (fun _ => true)
      [⟨"a.txt_0", "hello", "a.txt", 0⟩] ∧
    ((index_documents_run (fun _ => Except.error "boom") (fun _ => true) []
        [("a.txt", "hello")]).2.2.isSome = true ∧
     (index_documents_run (fun _ => Except.error "boom") (fun _ => true) []
        [("a.txt", "hello")]).2.1
       = ([] : List (List DocChunk)).foldl
           (fun s batch => storeUpsert s (batchRecs (fun _ => Except.error "boom") batch)) [] ∧
     (∀ t, Effect.embed t ∈ (index_documents_run (fun _ => Except.error "boom")
          (fun _ => true) [] [("a.txt", "hello")]).1 →
       ∃ batch ∈ [] ++ [[(⟨"a.txt_0", "hello", "a.txt", 0⟩ : DocChunk)]],
         ∃ d ∈ batch, t = d.text) ∧
     (∀ rs, Effect.upsert rs ∈ (index_documents_run (fun _ => Except.error "boom")
          (fun _ => true) [] [("a.txt", "hello")]).1 →
       ∃ batch ∈ [] ++ [[(⟨"a.txt_0", "hello", "a.txt", 0⟩ : DocChunk)]],
         rs = batchRecs (fun _ => Except.error "boom") batch)) := by
  have hsplit : pySlices (corpusDocs [("a.txt", "hello")]) batchSize
      = [] ++ [(⟨"a.txt_0", "hello", "a.txt", 0⟩ : DocChunk)] :: [] := by
    simp +decide [corpusDocs, docsForFile, pyEnumFrom, eligibleFile, strEndsWith, chunk_text,
      chunk_core, pySlices, pyRange, wordsOf, joinSp, stripChars, defaultChunkSize, batchSize]
  have hok : ∀ batch ∈ ([] : List (List DocChunk)),
      batchSucceeds (fun _ => Except.error "boom") (fun _ => true) batch := by
    intro batch hb
    simp at hb
  have hfail : ¬ batchSucceeds (fun _ => Except.error "boom") (fun _ => true)
      [⟨"a.txt_0", "hello", "a.txt", 0⟩] := by
    intro hbs
    exact absurd (hbs.1 ⟨"a.txt_0", "hello", "a.txt", 0⟩ (by simp))
      (by simp [Except.isOk, Except.toBool])
  exact ⟨hsplit, hok, hfail,
    index_documents_abort (fun _ => Except.error "boom") (fun _ => true) []
      [("a.txt", "hello")] [] [⟨"a.txt_0", "hello", "a.txt", 0⟩] [] hsplit hok hfail⟩

/-! ## Id stability of re-indexing (C6) -/

/-- One upsert step of the store model: replace in place when the id
exists, append otherwise. -/
def upsert1 (s : List URec) (r : URec) : List URec :=
  if s.any (fun x => x.id == r.id) then
    s.map (fun x => if x.id == r.id then r else x)
  else s ++ [r]

/-- `storeUpsert` is the fold of single upserts. -/
theorem storeUpsert_eq_foldl (s : List URec) (recs : List URec) :
    storeUpsert s recs = recs.foldl upsert1 s := rfl

/-- The ids of a store. -/
def storeIds (s : List URec) : List String := s.map URec.id

/-- In-place replacement never changes the id column. -/
theorem storeIds_upsert1_of_mem (s : List URec) (r : URec)
    (h : r.id ∈ storeIds s) : storeIds (upsert1 s r) = storeIds s := by
  have hany : s.any (fun x => x.id == r.id) = true := by
    obtain ⟨x, hx, hid⟩ := List.mem_map.mp h
    exact List.any_eq_true.mpr ⟨x, hx, by simp [hid]⟩
  rw [upsert1, if_pos hany, storeIds, storeIds, List.map_map]
  apply List.map_congr_left
  intro x _
  by_cases hord : x.id = r.id
  · simp [hord]
  · simp [hord]

/-- An upsert keeps every id that was already present. -/
theorem storeIds_upsert1_mono (s : List URec) (r : URec) (a : String)
    (h : a ∈ storeIds s) : a ∈ storeIds (upsert1 s r) := by
  rw [upsert1]
  split
  · obtain ⟨x, hx, hid⟩ := List.mem_map.mp h
    rw [storeIds, List.map_map]
    refine List.mem_map.mpr ⟨x, hx, ?_⟩
    simp only [Function.comp_apply, beq_iff_eq]
    by_cases hord : x.id = r.id
    · rw [if_pos hord, ← hid, hord]
    · rw [if_neg hord]
      exact hid
  · rw [storeIds] at h ⊢
    rw [List.map_append]
    exact List.mem_append_left _ h

/-- After upserting `r`, `r.id` is present. -/
theorem storeIds_upsert1_self (s : List URec) (r : URec) :
    r.id ∈ storeIds (upsert1 s r) := by
  rw [upsert1]
  split
  next hany =>
    obtain ⟨x, hx, hid⟩ := List.any_eq_true.mp hany
    rw [storeIds, List.map_map]
    refine List.mem_map.mpr ⟨x, hx, ?_⟩
    simp only [Function.comp_apply]
    rw [if_pos (by simpa using hid)]
  next =>
    rw [storeIds, List.map_append]
    exact List.mem_append_right _ (by simp)

/-- `storeUpsert` peels one record at a time. -/
theorem storeUpsert_cons (s : List URec) (r : URec) (recs : List URec) :
    storeUpsert s (r :: recs) = storeUpsert (upsert1 s r) recs := rfl

/-- Upserting records whose ids are all present changes no id. -/
theorem storeIds_storeUpsert_of_all_mem : ∀ (recs : List URec) (s : List URec),
    (∀ r ∈ recs, r.id ∈ storeIds s) → storeIds (storeUpsert s recs) = storeIds s
  | [], s, _ => rfl
  | r :: recs, s, h => by
    rw [storeUpsert_cons]
    have h1 : storeIds (upsert1 s r) = storeIds s :=
      storeIds_upsert1_of_mem s r (h r (by simp))
    rw [storeIds_storeUpsert_of_all_mem recs (upsert1 s r)
      (fun x hx => by rw [h1]; exact h x (List.mem_cons_of_mem _ hx)), h1]

/-- Ids already present survive any sequence of upserts. -/
theorem mem_storeIds_storeUpsert_mono : ∀ (recs : List URec) (s : List URec) (a : String),
    a ∈ storeIds s → a ∈ storeIds (storeUpsert s recs)
  | [], _, _, h => h
  | x :: recs, s, a, h => by
    rw [storeUpsert_cons]
    exact mem_storeIds_storeUpsert_mono recs (upsert1 s x) a (storeIds_upsert1_mono s x a h)

/-- Every upserted record's id is present afterwards. -/
theorem mem_storeIds_storeUpsert : ∀ (recs : List URec) (s : List URec) (r : URec),
    r ∈ recs → r.id ∈ storeIds (storeUpsert s recs)
  | [], _, _, hr => absurd hr (by simp)
  | x :: recs, s, r, hr => by
    rw [storeUpsert_cons]
    rcases List.mem_cons.mp hr with rfl | hr'
    · exact mem_storeIds_storeUpsert_mono recs (upsert1 s r) r.id
        (storeIds_upsert1_self s r)
    · exact mem_storeIds_storeUpsert recs (upsert1 s x) r hr'

/-- A fully successful run's store: the fold of the batches' upserts. -/
theorem runBatches_all_ok (embedR : String → Except String Vec)
    (upsertR : List URec → Bool) : ∀ (bs : List (List DocChunk)) (store : List URec),
    (∀ batch ∈ bs, batchSucceeds embedR upsertR batch) →
    (runBatches embedR upsertR store bs).2.1
      = bs.foldl (fun s b => storeUpsert s (batchRecs embedR b)) store
  | [], _, _ => rfl
  | b :: bs, store, h => by
    obtain ⟨hemb, hup⟩ := h b (by simp)
    rw [runBatches, embedDocs_ok embedR b hemb]
    dsimp only
    rw [if_pos hup]
    rcases hR : runBatches embedR upsertR (storeUpsert store (batchRecs embedR b)) bs
      with ⟨tr2, store2, r⟩
    dsimp only
    have hrec := runBatches_all_ok embedR upsertR bs (storeUpsert store (batchRecs embedR b))
      (fun u hu => h u (List.mem_cons_of_mem _ hu))
    rw [hR] at hrec
    rw [List.foldl_cons]
    exact hrec

/-- Upserting batch by batch is upserting the concatenation. -/
theorem foldl_storeUpsert_flatten (embedR : String → Except String Vec) :
    ∀ (bs : List (List DocChunk)) (s : List URec),
    bs.foldl (fun s b => storeUpsert s (batchRecs embedR b)) s
      = storeUpsert s (batchRecs embedR bs.flatten)
  | [], s => rfl
  | b :: bs, s => by
    rw [List.foldl_cons, foldl_storeUpsert_flatten embedR bs, List.flatten_cons]
    rw [batchRecs, batchRecs, batchRecs, List.map_append]
    rw [storeUpsert, storeUpsert, storeUpsert, List.foldl_append]

/-- **C6.** Running the indexing pipeline twice over the same corpus (with
the already-indexed guard bypassed) assigns the identical sequence of chunk
ids both times — the ids depend only on the corpus, not on the embedding
results — so the second run's upserts replace existing records by id: the
store's id column and its record count are unchanged by the second run.
The vector store's insert-or-replace-by-id upsert (`storeUpsert`) is
modelled from the specification, the store being external to the
repository. -/
theorem index_twice_replaces (embedR1 embedR2 : String → Except String Vec)
    (upsertR : List URec → Bool) (corpus : List (String × String))
    (h1 : ∀ batch ∈ pySlices (corpusDocs corpus) batchSize,
      batchSucceeds embedR1 upsertR batch)
    (h2 : ∀ batch ∈ pySlices (corpusDocs corpus) batchSize,
      batchSucceeds embedR2 upsertR batch) :
    (batchRecs embedR2 (corpusDocs corpus)).map URec.id
      = (batchRecs embedR1 (corpusDocs corpus)).map URec.id ∧
    storeIds ((index_documents_run embedR2 upsertR
        ((index_documents_run embedR1 upsertR [] corpus).2.1) corpus).2.1)
      = storeIds ((index_documents_run embedR1 upsertR [] corpus).2.1) ∧
    ((index_documents_run embedR2 upsertR
        ((index_documents_run embedR1 upsertR [] corpus).2.1) corpus).2.1).length
      = ((index_documents_run embedR1 upsertR [] corpus).2.1).length := by
  have hids : ∀ e : String → Except String Vec,
      (batchRecs e (corpusDocs corpus)).map URec.id
        = (corpusDocs corpus).map DocChunk.id := by
    intro e
    rw [batchRecs, List.map_map]
    rfl
  have hflat : (pySlices (corpusDocs corpus) batchSize).flatten = corpusDocs corpus := by
    rw [pySlices_eq_groupW batchSize (by decide)]
    exact groupW_flatten _ _
  have hs1 : (index_documents_run embedR1 upsertR [] corpus).2.1
      = storeUpsert [] (batchRecs embedR1 (corpusDocs corpus)) := by
    rw [index_documents_run, runBatches_all_ok embedR1 upsertR _ [] h1,
      foldl_storeUpsert_flatten, hflat]
  have hs2 : (index_documents_run embedR2 upsertR
        ((index_documents_run embedR1 upsertR [] corpus).2.1) corpus).2.1
      = storeUpsert ((index_documents_run embedR1 upsertR [] corpus).2.1)
          (batchRecs embedR2 (corpusDocs corpus)) := by
    rw [index_documents_run, runBatches_all_ok embedR2 upsertR _ _ h2,
      foldl_storeUpsert_flatten, hflat]
  have hmem : ∀ r ∈ batchRecs embedR2 (corpusDocs corpus),
      r.id ∈ storeIds ((index_documents_run embedR1 upsertR [] corpus).2.1) := by
    intro r hr
    rw [hs1]
    obtain ⟨d, hd, rfl⟩ := List.mem_map.mp hr
    have hsame : (recOfD embedR2 d).id = (recOfD embedR1 d).id := rfl
    rw [hsame]
    exact mem_storeIds_storeUpsert _ [] (recOfD embedR1 d) (List.mem_map.mpr ⟨d, hd, rfl⟩)
  have hidcol : storeIds ((index_documents_run embedR2 upsertR
        ((index_documents_run embedR1 upsertR [] corpus).2.1) corpus).2.1)
      = storeIds ((index_documents_run embedR1 upsertR [] corpus).2.1) := by
    rw [hs2]
    exact storeIds_storeUpsert_of_all_mem _ _ hmem
  refine ⟨by rw [hids, hids], hidcol, ?_⟩
  have hlen := congrArg List.length hidcol
  simpa [storeIds] using hlen

/-- Witness for C6: the one-file corpus, two runs with different embedding
oracles. -/
theorem index_twice_replaces_witness :
    (∀ batch ∈ pySlices (corpusDocs [("a.txt", "hello")]) batchSize,
      batchSucceeds (fun _ => Except.ok [1]) (fun _ => true) batch) ∧
    (∀ batch ∈ pySlices (corpusDocs [("a.txt", "hello")]) batchSize,
      batchSucceeds (fun _ => Except.ok [2]) (fun _ => true) batch) ∧
    ((batchRecs (fun _ => Except.ok [2]) (corpusDocs [("a.txt", "hello")])).map URec.id
      = (batchRecs (fun _ => Except.ok [1]) (corpusDocs [("a.txt", "hello")])).map URec.id ∧
    storeIds ((index_documents_run (fun _ => Except.ok [2]) (fun _ => true)
        ((index_documents_run (fun _ => Except.ok [1]) (fun _ => true) []
          [("a.txt", "hello")]).2.1) [("a.txt", "hello")]).2.1)
      = storeIds ((index_documents_run (fun _ => Except.ok [1]) (fun _ => true) []
          [("a.txt", "hello")]).2.1) ∧
    ((index_documents_run (fun _ => Except.ok [2]) (fun _ => true)
        ((index_documents_run (fun _ => Except.ok [1]) (fun _ => true) []
          [("a.txt", "hello")]).2.1) [("a.txt", "hello")]).2.1).length
      = ((index_documents_run (fun _ => Except.ok [1]) (fun _ => true) []
          [("a.txt", "hello")]).2.1).length) := by
  have heval : pySlices (corpusDocs [("a.txt", "hello")]) batchSize
      = [[(⟨"a.txt_0", "hello", "a.txt", 0⟩ : DocChunk)]] := by
    simp +decide [corpusDocs, docsForFile, pyEnumFrom, eligibleFile, strEndsWith, chunk_text,
      chunk_core, pySlices, pyRange, wordsOf, joinSp, stripChars, defaultChunkSize, batchSize]
  have hsucc1 : ∀ batch ∈ pySlices (corpusDocs [("a.txt", "hello")]) batchSize,
      batchSucceeds (fun _ => Except.ok [1]) (fun _ => true) batch := by
    intro batch hb
    rw [heval] at hb
    simp at hb
    subst hb
    exact ⟨fun d _ => rfl, rfl⟩
  have hsucc2 : ∀ batch ∈ pySlices (corpusDocs [("a.txt", "hello")]) batchSize,
      batchSucceeds (fun _ => Except.ok [2]) (fun _ => true) batch := by
    intro batch hb
    rw [heval] at hb
    simp at hb
    subst hb
    exact ⟨fun d _ => rfl, rfl⟩
  exact ⟨hsucc1, hsucc2,
    index_twice_replaces (fun _ => Except.ok [1]) (fun _ => Except.ok [2])
      (fun _ => true) [("a.txt", "hello")] hsucc1 hsucc2⟩

/-! ## Startup and credentials (C8) -/

/-- Python falsiness of an `os.getenv` result, as `if not key:` tests it:
`None` (variable missing) and the empty string are falsy. -/
def pyFalsy : Option String → Bool
  | none => true
  | some s => s == ""

/-- The configuration `RAGEngine.__init__` builds once both keys pass. -/
structure EngineConfig where
  pinecone_api_key : String
  openai_api_key : String
  index_name : String
  embedding_model : String
  embedding_dimension : Nat
  llm_model : String
deriving DecidableEq, Repr

/-- `RAGEngine.__init__`: read both keys from the environment and raise
`ValueError` when either is missing (or empty), before any client object is
built; otherwise produce the engine configuration. -/
def engineInit (env : String → Option String) : Except String EngineConfig :=
  let pk := env "PINECONE_API_KEY"
  let okey := env "OPENAI_API_KEY"
  if pyFalsy pk then
    .error "PINECONE_API_KEY not found in environment variables"
  else if pyFalsy okey then
    .error "OPENAI_API_KEY not found in environment variables"
  else
    .ok ⟨pk.getD "", okey.getD "", index_name, "text-embedding-3-small", 1536, "gpt-3.5-turbo"⟩

/-- The `lifespan` startup of `main.py`: construct the engine, then run
`initialize`; any raised error propagates out of the context manager, so
the application never starts serving.  The result is the trace of provider
calls plus either the served engine state or the propagated error. -/
def lifespanStartup (env : String → Option String)
    (embedR : String → Except String Vec) (upsertR : List URec → Bool)
    (existing : List String) (store : List URec)
    (corpus : List (String × String)) :
    List Effect × Except String (EngineConfig × List URec) :=
  match engineInit env with
  | .error e => ([], .error e)
  | .ok cfg =>
    match initRun embedR upsertR existing store corpus with
    | (tr, _, some e) => (tr, .error e)
    | (tr, store2, none) => (tr, .ok (cfg, store2))

/-- **C8.** If `PINECONE_API_KEY` or `OPENAI_API_KEY` is missing from the
environment, startup fails fatally: the constructor raises a configuration
error before any provider or vector-store call is attempted (the startup
trace is empty) and the process does not proceed to serve traffic (the
lifespan result is an error, never a served engine). -/
theorem startup_missing_key_fatal (env : String → Option String)
    (embedR : String → Except String Vec) (upsertR : List URec → Bool)
    (existing : List String) (store : List URec) (corpus : List (String × String))
    (h : env "PINECONE_API_KEY" = none ∨ env "OPENAI_API_KEY" = none) :
    (lifespanStartup env embedR upsertR existing store corpus).1 = [] ∧
    ∃ msg, (lifespanStartup env embedR upsertR existing store corpus).2
      = Except.error msg := by
  have hinit : ∃ m, engineInit env = .error m := by
    rcases h with h | h
    · exact ⟨"PINECONE_API_KEY not found in environment variables",
        by simp [engineInit, h, pyFalsy]⟩
    · rcases hp : pyFalsy (env "PINECONE_API_KEY") with _ | _
      · refine ⟨"OPENAI_API_KEY not found in environment variables", ?_⟩
        rw [engineInit, if_neg (by rw [hp]; simp), if_pos (by rw [h]; rfl)]
      · exact ⟨"PINECONE_API_KEY not found in environment variables",
          by simp [engineInit, hp]⟩
  obtain ⟨m, hm⟩ := hinit
  rw [lifespanStartup, hm]
  exact ⟨rfl, m, rfl⟩

/-- Witness for C8: an empty environment. -/
theorem startup_missing_key_fatal_witness :
    ((fun _ => none : String → Option String) "PINECONE_API_KEY" = none ∨
     (fun _ => none : String → Option String) "OPENAI_API_KEY" = none) ∧
    ((lifespanStartup (fun _ => none) (fun _ => Except.ok []) (fun _ => true)
        [] [] []).1 = [] ∧
     ∃ msg, (lifespanStartup (fun _ => none) (fun _ => Except.ok []) (fun _ => true)
        [] [] []).2 = Except.error msg) :=
  ⟨Or.inl rfl,
   startup_missing_key_fatal (fun _ => none) (fun _ => Except.ok []) (fun _ => true)
     [] [] [] (Or.inl rfl)⟩

/-! ## The query pipeline (C3, C9) -/

/-- One match of the vector store's query response, with metadata included
(`match['metadata']['text']`, `['source']`, and `match['score']`; the
numeric score passes through untouched, so it is abstracted to `Int`). -/
structure QueryMatch where
  score : Int
  text : String
  source : String
deriving DecidableEq, Repr

/-- One retrieved chunk `{'text', 'source', 'score'}`. -/
structure RChunk where
  text : String
  source : String
  score : Int
deriving DecidableEq, Repr

/-- The fixed `top_k` the query path uses (`retrieve_relevant_chunks`'s
default, which `query` never overrides). -/
def defaultTopK : Nat := 3

/-- `RAGEngine.retrieve_relevant_chunks`: embed the query, ask the store
for the `top_k` nearest matches, and extract text, source and score in the
store's ranked order. -/
def retrieve_relevant_chunks (embedQ : String → Vec)
    (storeQ : Vec → Nat → List QueryMatch) (query : String) (top_k : Nat) :
    List RChunk :=
  (storeQ (embedQ query) top_k).map (fun m => ⟨m.text, m.source, m.score⟩)

/-- The context block of `generate_response`:
`"\n\n".join(f"[Source: {chunk.source}]\n{chunk.text}" for each chunk)`. -/
def buildContext (chunks : List RChunk) : String :=
  String.intercalate "\n\n"
    (chunks.map (fun c => "[Source: " ++ c.source ++ "]\n" ++ c.text))

/-- The grounded prompt of `generate_response` (the f-string with the
context block and the literal question spliced in). -/
def buildPrompt (query : String) (chunks : List RChunk) : String :=
  "You are a helpful assistant for Acme Tech Solutions. Answer the user\x27s question based on the following context from company documents.\n\nContext:\n"
    ++ buildContext chunks
    ++ "\n\nUser Question: " ++ query
    ++ "\n\nInstructions:\n- Answer based on the provided context\n- Be helpful and conversational\n- If the context doesn\x27t contain enough information to answer fully, say so\n- Do not make up information not present in the context\n\nAnswer:"

/-- `RAGEngine.generate_response`: the chat-completion call on the fixed
system message plus the grounded prompt (temperature 0.7 and the 500-token
cap select among completions; the completion itself is the oracle's value
on the messages). -/
def generate_response (llm : List (String × String) → String) (query : String)
    (context_chunks : List RChunk) : String :=
  llm [("system", "You are a helpful assistant for Acme Tech Solutions."),
       ("user", buildPrompt query context_chunks)]

/-- `RAGEngine.query`: retrieve the relevant chunks with the default
`top_k`, generate the response, and return it with the de-duplicated
source list.  Python's `list(set(...))` enumerates a hash set in an
unspecified order; its observable content — each distinct source exactly
once — is modelled by `dedup`. -/
def queryRun (embedQ : String → Vec) (storeQ : Vec → Nat → List QueryMatch)
    (llm : List (String × String) → String) (user_query : String) :
    String × List String :=
  let relevant_chunks := retrieve_relevant_chunks embedQ storeQ user_query defaultTopK
  let response := generate_response llm user_query relevant_chunks
  (response, (relevant_chunks.map RChunk.source).dedup)

/-- **C3.** The sources component returned by `query` contains each
distinct source value of the retrieved chunks exactly once (no duplicates,
membership unchanged; order irrelevant), and when zero chunks are
retrieved the sources list is empty and the prompt's context block is the
empty string. -/
theorem query_sources_dedup (embedQ : String → Vec)
    (storeQ : Vec → Nat → List QueryMatch)
    (llm : List (String × String) → String) (user_query : String) :
    (queryRun embedQ storeQ llm user_query).2.Nodup ∧
    (∀ s, s ∈ (queryRun embedQ storeQ llm user_query).2 ↔
      s ∈ (retrieve_relevant_chunks embedQ storeQ user_query defaultTopK).map
        RChunk.source) ∧
    (storeQ (embedQ user_query) defaultTopK = [] →
      (queryRun embedQ storeQ llm user_query).2 = [] ∧
      buildContext (retrieve_relevant_chunks embedQ storeQ user_query defaultTopK)
        = "") := by
  refine ⟨List.nodup_dedup _, fun s => List.mem_dedup, fun hempty => ⟨?_, ?_⟩⟩
  · rw [queryRun]
    dsimp only
    rw [retrieve_relevant_chunks, hempty]
    rfl
  · rw [retrieve_relevant_chunks, hempty]
    rfl

/-- **C9.** Every query retrieves with the fixed `top_k` of 3 — `query`
calls the retriever at `defaultTopK = 3` — returning at most 3 chunks
(given the store's contract of at most `top_k` results), and the context
block is the concatenation, in the store's ranked order, of each result's
text prefixed by an attribution header naming its source. -/
theorem query_topk_context (embedQ : String → Vec)
    (storeQ : Vec → Nat → List QueryMatch)
    (llm : List (String × String) → String) (user_query : String)
    (hstore : ∀ v k, (storeQ v k).length ≤ k) :
    defaultTopK = 3 ∧
    (queryRun embedQ storeQ llm user_query).1
      = generate_response llm user_query
          (retrieve_relevant_chunks embedQ storeQ user_query 3) ∧
    (retrieve_relevant_chunks embedQ storeQ user_query defaultTopK).length ≤ 3 ∧
    buildContext (retrieve_relevant_chunks embedQ storeQ user_query defaultTopK)
      = String.intercalate "\n\n" ((storeQ (embedQ user_query) defaultTopK).map
          (fun m => "[Source: " ++ m.source ++ "]\n" ++ m.text)) := by
  refine ⟨rfl, rfl, ?_, ?_⟩
  · rw [retrieve_relevant_chunks, List.length_map]
    exact hstore _ _
  · rw [buildContext, retrieve_relevant_chunks, List.map_map]
    rfl

set_option maxHeartbeats 1000000 in
/-- Witness for C9: a store oracle returning its first `k` candidates. -/
theorem query_topk_context_witness :
    (∀ v k, (((fun _ k => ([⟨9, "t1", "a"⟩, ⟨8, "t2", "b"⟩] : List QueryMatch).take k) :
        Vec → Nat → List QueryMatch) v k).length ≤ k) ∧
    (defaultTopK = 3 ∧
     (queryRun (fun _ => []) (fun _ k => [⟨9, "t1", "a"⟩, ⟨8, "t2", "b"⟩].take k)
        (fun _ => "answer") "q").1
       = generate_response (fun _ => "answer") "q"
           (retrieve_relevant_chunks (fun _ => [])
             (fun _ k => [⟨9, "t1", "a"⟩, ⟨8, "t2", "b"⟩].take k) "q" 3) ∧
     (retrieve_relevant_chunks (fun _ => [])
        (fun _ k => [⟨9, "t1", "a"⟩, ⟨8, "t2", "b"⟩].take k) "q" defaultTopK).length ≤ 3 ∧
     buildContext (retrieve_relevant_chunks (fun _ => [])
        (fun _ k => [⟨9, "t1", "a"⟩, ⟨8, "t2", "b"⟩].take k) "q" defaultTopK)
       = String.intercalate "\n\n"
           ((((fun _ k => [⟨9, "t1", "a"⟩, ⟨8, "t2", "b"⟩].take k) :
              Vec → Nat → List QueryMatch) (((fun _ => []) : String → Vec) "q") defaultTopK).map
             (fun m => "[Source: " ++ m.source ++ "]\n" ++ m.text))) :=
  ⟨fun v k => by simp,
   query_topk_context (fun _ => []) (fun _ k => [⟨9, "t1", "a"⟩, ⟨8, "t2", "b"⟩].take k)
     (fun _ => "answer") "q"
     (fun v k => by simp)⟩
